import Mathlib

/-!
Shallow embedding of `src/shared_data/step5_cross_calc.py` (class `Step5CrossCalc`
and dataclass `CrossPlatformData`).

Modelling conventions:

* Python floats are modelled by `PyFloat`: exact rationals plus the IEEE special
  values `inf`, `-inf`, `nan`.  Finite arithmetic is exact rational arithmetic
  (the spec states its formulas at this level); special-value propagation and
  comparisons follow IEEE-754 (`nan` compares false to everything, Python's
  `abs`/`min` are derived from `<` exactly as in CPython).
* Dynamic Python values reaching the component are modelled by `PyValue`:
  `None`, strings, floats, and unhashable non-numeric objects (carrying their
  `str()` form).  Attribute presence is modelled by `Option PyValue` fields on
  `Item`; reading an absent attribute raises `AttributeError`.
* Exceptions are explicit: state-mutating code returns its final `Stats`
  together with an `Except` result, so counter increments made before a raise
  persist, exactly as mutations on `self.stats` do in Python.
* `str()` of a finite float is a model artifact (`toString` of the rational);
  it is only stored verbatim in output record string fields and tested against
  the sentinel list `["inf", "-inf", "nan"]`, where every finite decimal form
  behaves identically (it is never a sentinel).
* Wall-clock fields (`start_time`, `end_time`, `calculated_at`, the metadata
  `source` tag and the rate-limited logging) are omitted: they are not counters
  and no claim mentions them.  Python float literals containing underscores are
  not modelled; no claim mentions them.
-/

namespace Step5

/-- Rational multiplication, written through `mkRat` so that it evaluates by
kernel reduction (`Rat.mul` itself is irreducible).  `qMul_eq` below identifies
it with `*`. -/
def qMul (a b : ℚ) : ℚ := mkRat (a.num * b.num) (a.den * b.den)

/-- Rational subtraction through `mkRat`; `qSub_eq` identifies it with `-`. -/
def qSub (a b : ℚ) : ℚ := mkRat (a.num * b.den - b.num * a.den) (a.den * b.den)

/-- Rational absolute value through `mkRat`; `qAbs_eq` identifies it with
`|·|`. -/
def qAbs (a : ℚ) : ℚ := mkRat (a.num.natAbs : ℤ) a.den

/-- Rational negation through `mkRat`; `qNeg_eq` identifies it with `-·`. -/
def qNeg (a : ℚ) : ℚ := mkRat (-a.num) a.den

/-- Rational division through `mkRat` (`qDiv a 0 = 0`, but the embedded code
only divides by values guarded to be positive). -/
def qDiv (a b : ℚ) : ℚ :=
  if b.num < 0 then mkRat (-(a.num * (b.den : ℤ))) (a.den * b.num.natAbs)
  else mkRat (a.num * (b.den : ℤ)) (a.den * b.num.natAbs)

/-- A Python float: an exact rational (finite doubles are rationals) or one of
the IEEE special values. -/
inductive PyFloat where
  | finite (q : ℚ)
  | inf
  | ninf
  | nan
deriving DecidableEq

/-- Python unary minus on floats (`float("-nan")` is `nan`). -/
def pyNeg : PyFloat → PyFloat
  | .finite q => .finite (qNeg q)
  | .inf => .ninf
  | .ninf => .inf
  | .nan => .nan

/-- IEEE `<` on Python floats: any comparison involving `nan` is false. -/
def pyLt : PyFloat → PyFloat → Bool
  | .nan, _ => false
  | _, .nan => false
  | .finite a, .finite b => decide (a < b)
  | .finite _, .inf => true
  | .finite _, .ninf => false
  | .inf, _ => false
  | .ninf, .ninf => false
  | .ninf, _ => true

/-- IEEE numeric equality on Python floats (`nan != nan`). -/
def pyEqNum : PyFloat → PyFloat → Bool
  | .finite a, .finite b => decide (a = b)
  | .inf, .inf => true
  | .ninf, .ninf => true
  | _, _ => false

/-- IEEE `<=` on Python floats. -/
def pyLe (a b : PyFloat) : Bool := pyLt a b || pyEqNum a b

/-- Python float subtraction (exact on finite values in this model;
`inf - inf` is `nan`, etc.). -/
def pySub : PyFloat → PyFloat → PyFloat
  | .nan, _ => .nan
  | _, .nan => .nan
  | .finite a, .finite b => .finite (qSub a b)
  | .finite _, .inf => .ninf
  | .finite _, .ninf => .inf
  | .inf, .finite _ => .inf
  | .inf, .inf => .nan
  | .inf, .ninf => .inf
  | .ninf, .finite _ => .ninf
  | .ninf, .inf => .ninf
  | .ninf, .ninf => .nan

/-- Python `abs` on floats (`abs(nan)` is `nan`). -/
def pyAbs : PyFloat → PyFloat
  | .finite q => .finite (qAbs q)
  | .inf => .inf
  | .ninf => .inf
  | .nan => .nan

/-- Python `min(a, b)`: returns `b` exactly when `b < a`, else `a`
(this is CPython's behaviour, including for `nan`). -/
def pyMin (a b : PyFloat) : PyFloat := if pyLt b a then b else a

/-- Python float division.  The sole call site in the source divides by
`min_price`, guarded by `min_price > 1e-10`, so the divisor is never zero
there; the `b = 0` branch (where CPython raises `ZeroDivisionError`) is given
a junk value that is unreachable from the embedded component.  IEEE signed
zero is not modelled for the same reason. -/
def pyDiv : PyFloat → PyFloat → PyFloat
  | .nan, _ => .nan
  | _, .nan => .nan
  | .finite a, .finite b => if b = 0 then .nan else .finite (qDiv a b)
  | .finite _, .inf => .finite 0
  | .finite _, .ninf => .finite 0
  | .inf, .finite b => if decide (b < 0) then .ninf else .inf
  | .ninf, .finite b => if decide (b < 0) then .inf else .ninf
  | .inf, .inf => .nan
  | .inf, .ninf => .ninf
  | .ninf, .inf => .ninf
  | .ninf, .ninf => .nan

/-- Python float multiplication (IEEE rules: `inf * 0` is `nan`). -/
def pyMul : PyFloat → PyFloat → PyFloat
  | .nan, _ => .nan
  | _, .nan => .nan
  | .finite a, .finite b => .finite (qMul a b)
  | .inf, .finite b => if b = 0 then .nan else if decide (0 < b) then .inf else .ninf
  | .finite a, .inf => if a = 0 then .nan else if decide (0 < a) then .inf else .ninf
  | .ninf, .finite b => if b = 0 then .nan else if decide (0 < b) then .ninf else .inf
  | .finite a, .ninf => if a = 0 then .nan else if decide (0 < a) then .ninf else .inf
  | .inf, .inf => .inf
  | .inf, .ninf => .ninf
  | .ninf, .inf => .ninf
  | .ninf, .ninf => .inf

/-- The magnitude ceiling `1e15` of `_safe_float`. -/
def bigCeil : ℚ := mkRat (Int.ofNat ((10 : ℕ) ^ 15)) 1

/-- The epsilon floor `1e-10` of `_merge_pair`. -/
def epsFloor : ℚ := mkRat 1 ((10 : ℕ) ^ 10)

/-- The test `abs(result) > 1e15` of `_safe_float`, line 268.
`abs(nan) > 1e15` is false under IEEE comparison. -/
def pyAbsGtCeil : PyFloat → Bool
  | .finite q => decide (bigCeil < qAbs q)
  | .inf => true
  | .ninf => true
  | .nan => false

/-- A dynamic Python value as it can reach this component: `None`, a string, a
float, or a non-numeric object.  `unhashable` stands for objects (such as
lists) that `float()` rejects with `TypeError` and that cannot be used as
`dict` keys; it carries the object's `str()` form. -/
inductive PyValue where
  | none
  | str (s : String)
  | num (x : PyFloat)
  | unhashable (r : String)
deriving DecidableEq

/-- Whether a value can be used as a `dict` key. -/
def isHashable : PyValue → Bool
  | .unhashable _ => false
  | _ => true

/-- The decimal digit characters of a natural number, fuel-based recursion
(`fuel ≥ n` suffices since `n < 10 ^ n`). -/
def natDigitChars : ℕ → ℕ → List Char
  | 0, _ => []
  | fuel + 1, n =>
    if n < 10 then [Char.ofNat (48 + n)]
    else natDigitChars fuel (n / 10) ++ [Char.ofNat (48 + n % 10)]

/-- `str()` applied to a finite Python float.  Model artifact: see the header
comment; it is never one of the sentinels `"inf"`, `"-inf"`, `"nan"`, which is
all the embedded code ever tests about it. -/
def ratRepr (q : ℚ) : String :=
  ⟨(if q < 0 then ['-'] else []) ++ natDigitChars (q.num.natAbs + 1) q.num.natAbs ++
    (if q.den = 1 then [] else '/' :: natDigitChars (q.den + 1) q.den)⟩

/-- Python `str(value)`. -/
def pyStr : PyValue → String
  | .none => "None"
  | .str s => s
  | .num (.finite q) => ratRepr q
  | .num .inf => "inf"
  | .num .ninf => "-inf"
  | .num .nan => "nan"
  | .unhashable r => r

/-- Python whitespace stripped by `str.strip()` and by `float()`. -/
def isPyWs (c : Char) : Bool :=
  c = ' ' || c = '\t' || c = '\n' || c = '\r' || c = '\x0b' || c = '\x0c'

/-- Strip leading and trailing whitespace from a character list. -/
def stripWsChars (l : List Char) : List Char :=
  ((l.dropWhile isPyWs).reverse.dropWhile isPyWs).reverse

/-- Split a character list at every occurrence of `c` (like `str.split`). -/
def splitOnChar (c : Char) : List Char → List (List Char)
  | [] => [[]]
  | x :: rest =>
    match splitOnChar c rest with
    | h :: t => if x = c then [] :: h :: t else (x :: h) :: t
    | [] => if x = c then [[], []] else [[x]]

/-- The numeric value of a decimal digit. -/
def digitVal (c : Char) : Option ℕ :=
  if c.isDigit then some (c.toNat - '0'.toNat) else Option.none

/-- Accumulate a digit string into a natural number; fails on a non-digit. -/
def natOfDigitsAux : List Char → ℕ → Option ℕ
  | [], acc => some acc
  | c :: rest, acc =>
    match digitVal c with
    | some d => natOfDigitsAux rest (acc * 10 + d)
    | Option.none => Option.none

/-- A nonempty all-digit character list as a natural number. -/
def natOfDigits : List Char → Option ℕ
  | [] => Option.none
  | l => natOfDigitsAux l 0

/-- `10 ^ e` as a rational, for an integer exponent. -/
def ratPow10 : ℤ → ℚ
  | .ofNat n => mkRat (Int.ofNat ((10 : ℕ) ^ n)) 1
  | .negSucc n => mkRat 1 ((10 : ℕ) ^ (n + 1))

/-- Parse the mantissa of a float literal: digits with an optional single
decimal point; at least one digit overall (`"1."` and `".5"` are accepted by
CPython, `"."` is not). -/
def parseMantissa (l : List Char) : Option ℚ :=
  match splitOnChar '.' l with
  | [ip] => (natOfDigits ip).map (fun n => mkRat (Int.ofNat n) 1)
  | [ip, fp] =>
      (natOfDigits (ip ++ fp)).map (fun n => mkRat (Int.ofNat n) ((10 : ℕ) ^ fp.length))
  | _ => Option.none

/-- Parse an exponent part: optional sign, then a nonempty digit string. -/
def parseExpPart (l : List Char) : Option ℤ :=
  match l with
  | '+' :: rest => (natOfDigits rest).map Int.ofNat
  | '-' :: rest => (natOfDigits rest).map (fun n => -(n : ℤ))
  | _ => (natOfDigits l).map Int.ofNat

/-- Parse the body of a float literal (already lowercased, sign removed):
`inf`, `infinity`, `nan`, or a decimal with optional exponent. -/
def parseBody (l : List Char) : Option PyFloat :=
  if l = "inf".toList || l = "infinity".toList then some PyFloat.inf
  else if l = "nan".toList then some PyFloat.nan
  else
    match splitOnChar 'e' l with
    | [m] => (parseMantissa m).map PyFloat.finite
    | [m, e] =>
        match parseMantissa m, parseExpPart e with
        | some mv, some ev => some (PyFloat.finite (qMul mv (ratPow10 ev)))
        | _, _ => Option.none
    | _ => Option.none

/-- CPython `float(s)` on a string (as a character list): surrounding
whitespace allowed, optional sign, case-insensitive body.  Large literals that
overflow a double to `inf` are kept exact here; the only consumer compares
magnitudes against `1e15`, where both representations agree. -/
def parsePyFloatChars (cs : List Char) : Option PyFloat :=
  match (stripWsChars cs).map Char.toLower with
  | '+' :: rest => parseBody rest
  | '-' :: rest => (parseBody rest).map pyNeg
  | l => parseBody l

/-- CPython `float(s)` on a string. -/
def parsePyFloat (s : String) : Option PyFloat := parsePyFloatChars s.toList

/-- A Python exception reaching the component's handlers.  `ValueError` and
`TypeError` from `float()` are caught by the same clause in the source, so a
single constructor covers both. -/
inductive PyErr where
  | typeError
  | attrError
deriving DecidableEq

/-- Python `float(value)` on a dynamic value (`_safe_float` line 261). -/
def pyFloatOf : PyValue → Except PyErr PyFloat
  | .none => .error .typeError
  | .num x => .ok x
  | .str s =>
      match parsePyFloat s with
      | some x => .ok x
      | Option.none => .error .typeError
  | .unhashable _ => .error .typeError

/-- The membership test `str(value).lower() in ['inf', '-inf', 'nan']`
(line 264), on the lowercased character list of `str(value)`. -/
def isSentinelLower (l : List Char) : Bool :=
  l = "inf".toList || l = "-inf".toList || l = "nan".toList

/-- Remove every comma, as `str.replace(',', '')` does (line 275). -/
def removeCommas (l : List Char) : List Char := l.filter (fun c => c ≠ ',')

/-- `Step5CrossCalc._safe_float` (lines 254-278): direct conversion first,
then the textual sentinel check `str(value).lower() in ['inf', '-inf', 'nan']`,
then the magnitude ceiling; on a conversion error, one retry on the
whitespace-stripped, comma-free string (`float` strips surrounding whitespace
itself, so the `.strip()` call is absorbed into the retried conversion).
Note that the fallback path performs no sentinel or magnitude check
(lines 275-276). -/
def safeFloat (value : PyValue) : Option PyFloat :=
  match value with
  | .none => Option.none
  | v =>
    match pyFloatOf v with
    | .ok result =>
        if isSentinelLower ((pyStr v).toList.map Char.toLower) then Option.none
        else if pyAbsGtCeil result then Option.none
        else some result
    | .error _ =>
        match parsePyFloatChars (removeCommas (pyStr v).toList) with
        | some x => some x
        | Option.none => Option.none

/-- An input record as seen by `Step5CrossCalc` (duck-typed upstream object).
A field holds `Option.none` when the attribute is absent (`hasattr` false);
reading it then raises `AttributeError`. -/
structure Item where
  exchange : Option PyValue
  symbol : Option PyValue
  latest_price : Option PyValue
  funding_rate : Option PyValue
  period_seconds : Option PyValue
  countdown_seconds : Option PyValue
  last_settlement_time : Option PyValue
  current_settlement_time : Option PyValue
  next_settlement_time : Option PyValue
deriving DecidableEq

/-- The counter part of `self.stats` (lines 72-83).  The wall-clock entries
`start_time` / `end_time` are not counters and are omitted. -/
structure Stats where
  total_processed : ℕ
  successful : ℕ
  failed : ℕ
  okx_missing : ℕ
  binance_missing : ℕ
  price_invalid : ℕ
  calc_errors : ℕ
  price_too_low : ℕ
deriving DecidableEq

/-- The counters as set up by `Step5CrossCalc.__init__`. -/
def initStats : Stats :=
  { total_processed := 0, successful := 0, failed := 0, okx_missing := 0
    binance_missing := 0, price_invalid := 0, calc_errors := 0, price_too_low := 0 }

def bumpSuccessful (s : Stats) : Stats := { s with successful := s.successful + 1 }

def bumpFailed (s : Stats) : Stats := { s with failed := s.failed + 1 }

def bumpOkxMissing (s : Stats) : Stats := { s with okx_missing := s.okx_missing + 1 }

def bumpBinanceMissing (s : Stats) : Stats :=
  { s with binance_missing := s.binance_missing + 1 }

def bumpPriceInvalid (s : Stats) : Stats :=
  { s with price_invalid := s.price_invalid + 1 }

def bumpCalcErrors (s : Stats) : Stats := { s with calc_errors := s.calc_errors + 1 }

def bumpPriceTooLow (s : Stats) : Stats :=
  { s with price_too_low := s.price_too_low + 1 }

/-- Componentwise order on all eight counters. -/
def Stats.counterLe (s t : Stats) : Prop :=
  s.total_processed ≤ t.total_processed ∧ s.successful ≤ t.successful ∧
  s.failed ≤ t.failed ∧ s.okx_missing ≤ t.okx_missing ∧
  s.binance_missing ≤ t.binance_missing ∧ s.price_invalid ≤ t.price_invalid ∧
  s.calc_errors ≤ t.calc_errors ∧ s.price_too_low ≤ t.price_too_low

/-- Componentwise order on the seven cumulative counters, excluding
`total_processed` (which `process` assigns rather than accumulates). -/
def Stats.cumLe (s t : Stats) : Prop :=
  s.successful ≤ t.successful ∧ s.failed ≤ t.failed ∧
  s.okx_missing ≤ t.okx_missing ∧ s.binance_missing ≤ t.binance_missing ∧
  s.price_invalid ≤ t.price_invalid ∧ s.calc_errors ≤ t.calc_errors ∧
  s.price_too_low ≤ t.price_too_low

/-- `Step5CrossCalc._is_basic_valid` (lines 148-166): the three `hasattr`
checks and the membership test `item.exchange in ["okx", "binance"]`
(Python `==` between a string and a non-string value is `False`, so only the
two string identifiers pass). -/
def basicValid (item : Item) : Bool :=
  match item.exchange, item.symbol, item.latest_price with
  | some ex, some _, some _ =>
      decide (ex = PyValue.str "okx") || decide (ex = PyValue.str "binance")
  | _, _, _ => false

/-- Append `it` to the group of key `k`, creating the group at the end on a
fresh key — Python 3.7+ `dict` iteration order is insertion order of keys, so
`defaultdict(list)` grouping is this association-list operation. -/
def groupInsert (g : List (PyValue × List Item)) (k : PyValue) (it : Item) :
    List (PyValue × List Item) :=
  match g with
  | [] => [(k, [it])]
  | (k', l) :: rest =>
      if k' = k then (k', l ++ [it]) :: rest else (k', l) :: groupInsert rest k it

/-- One iteration of the grouping loop (lines 114-117): a structurally valid
item is appended to `grouped[item.symbol]`; indexing the dict with an
unhashable symbol value raises `TypeError` (uncaught in the source). -/
def groupStep (g : List (PyValue × List Item)) (item : Item) :
    Except PyErr (List (PyValue × List Item)) :=
  if basicValid item then
    match item.symbol with
    | some k => if isHashable k then .ok (groupInsert g k item) else .error .typeError
    | Option.none => .error .attrError
  else .ok g

/-- The grouping loop over the whole input. -/
def groupItems : List Item → List (PyValue × List Item) →
    Except PyErr (List (PyValue × List Item))
  | [], g => .ok g
  | it :: rest, g =>
      match groupStep g it with
      | .ok g' => groupItems rest g'
      | .error e => .error e

/-- The symbol keys of a grouping, in iteration order. -/
def keysOf (g : List (PyValue × List Item)) : List PyValue := g.map Prod.fst

/-- The dataclass `CrossPlatformData` (lines 18-65).  The `metadata` dict is
represented by its only data-dependent entry, the `price_validation` tag set
by `__post_init__`; `calculated_at` (wall clock) and the constant entries are
omitted. -/
structure CrossPlatformData where
  symbol : PyValue
  price_diff : PyFloat
  price_diff_percent : PyFloat
  rate_diff : PyFloat
  okx_price : String
  okx_funding_rate : String
  binance_price : String
  binance_funding_rate : String
  okx_period_seconds : PyValue
  okx_countdown_seconds : PyValue
  okx_last_settlement : PyValue
  okx_current_settlement : PyValue
  okx_next_settlement : PyValue
  binance_period_seconds : PyValue
  binance_countdown_seconds : PyValue
  binance_last_settlement : PyValue
  binance_current_settlement : PyValue
  binance_next_settlement : PyValue
  price_validation : String
deriving DecidableEq

/-- `float(str(v))` as computed by `__post_init__` (lines 60-62) on the
original attribute value `v`: the dataclass stores `str(v)` and re-parses it.
For a Python float `x`, `float(str(x))` round-trips to `x` (`repr`
round-trip), so the `num` case short-circuits. -/
def postInitFloat : PyValue → Option PyFloat
  | .num x => some x
  | v => parsePyFloatChars (pyStr v).toList

/-- The `price_validation` tag computed by `__post_init__` (lines 59-65). -/
def priceValidationTag (va vb : PyValue) : String :=
  match postInitFloat va, postInitFloat vb with
  | some x, some y =>
      if pyLt (.finite 0) x && pyLt (.finite 0) y then "valid"
      else "invalid"
  | _, _ => "error"

/-- The `CrossPlatformData(...)` construction at lines 228-252: every argument
is evaluated in order; accessing a missing attribute raises `AttributeError`
outside the `try` of lines 185-225, so it propagates out of `_merge_pair`. -/
def buildRecord (sym : PyValue) (a b : Item) (pd pdp rd : PyFloat) :
    Except PyErr CrossPlatformData :=
  match a.latest_price, a.funding_rate, b.latest_price, b.funding_rate with
  | some va, some ra, some vb, some rb =>
    match a.period_seconds, a.countdown_seconds, a.last_settlement_time,
        a.current_settlement_time, a.next_settlement_time,
        b.period_seconds, b.countdown_seconds, b.last_settlement_time,
        b.current_settlement_time, b.next_settlement_time with
    | some aps, some acs, some als, some acu, some anx,
      some bps, some bcs, some bls, some bcu, some bnx =>
        .ok { symbol := sym
              price_diff := pd
              price_diff_percent := pdp
              rate_diff := rd
              okx_price := pyStr va
              okx_funding_rate := pyStr ra
              binance_price := pyStr vb
              binance_funding_rate := pyStr rb
              okx_period_seconds := aps
              okx_countdown_seconds := acs
              okx_last_settlement := als
              okx_current_settlement := acu
              okx_next_settlement := anx
              binance_period_seconds := bps
              binance_countdown_seconds := bcs
              binance_last_settlement := bls
              binance_current_settlement := bcu
              binance_next_settlement := bnx
              price_validation := priceValidationTag va vb }
    | _, _, _, _, _, _, _, _, _, _ => .error .attrError
  | _, _, _, _ => .error .attrError

/-- Lines 187-209 of `_merge_pair`: parse both prices, count an invalid price
once, coerce parse failures to `0`, compute `price_diff` and
`price_diff_percent` with the positivity and `1e-10` guards.  `x or 0` on a
parsed float only replaces the falsy `0.0` by the numerically equal int `0`,
so the coercion is `Option.getD (finite 0)`.  Returns
`(price_diff, price_diff_percent, stats)`. -/
def calcPrices (stats : Stats) (va vb : PyValue) : PyFloat × PyFloat × Stats :=
  let op := safeFloat va
  let bp := safeFloat vb
  let stats1 := if op.isNone || bp.isNone then bumpPriceInvalid stats else stats
  let okx_price := op.getD (.finite 0)
  let binance_price := bp.getD (.finite 0)
  let price_diff := pyAbs (pySub okx_price binance_price)
  if pyLt (.finite 0) okx_price && pyLt (.finite 0) binance_price then
    if pyLt (.finite epsFloor) (pyMin okx_price binance_price) then
      (price_diff,
       pyMul (pyDiv price_diff (pyMin okx_price binance_price)) (.finite 100),
       stats1)
    else (price_diff, .finite 0, bumpPriceTooLow stats1)
  else (price_diff, .finite 0, stats1)

/-- Lines 212-218 of `_merge_pair`: parse both funding rates (coercing parse
failure to `0`) and compute `rate_diff`.  A missing `funding_rate` attribute
raises inside the `try`, which the `except` of line 220 turns into
`calc_errors += 1` and `return None`. -/
def calcRates (pd pdp : PyFloat) (s : Stats) (raOpt rbOpt : Option PyValue) :
    Option (PyFloat × PyFloat × PyFloat) × Stats :=
  match raOpt, rbOpt with
  | some ra, some rb =>
      (some (pd, pdp,
        pyAbs (pySub ((safeFloat ra).getD (.finite 0))
          ((safeFloat rb).getD (.finite 0)))),
       s)
  | _, _ => (Option.none, bumpCalcErrors s)

/-- The guarded `try` block of `_merge_pair` (lines 185-225): any exception in
it (here: only missing-attribute reads) is caught, `calc_errors` is bumped and
no data is produced; increments already made persist. -/
def calcBlock (stats : Stats) (a b : Item) :
    Option (PyFloat × PyFloat × PyFloat) × Stats :=
  match a.latest_price, b.latest_price with
  | some va, some vb =>
      let r := calcPrices stats va vb
      calcRates r.1 r.2.1 r.2.2 a.funding_rate b.funding_rate
  | _, _ => (Option.none, bumpCalcErrors stats)

/-- `next((item for item in items if item.exchange == ex), None)`
(lines 172-173): scan until the first matching exchange; reading a missing
`exchange` attribute on the way raises. -/
def findExchange (items : List Item) (ex : String) : Except PyErr (Option Item) :=
  match items with
  | [] => .ok Option.none
  | it :: rest =>
      match it.exchange with
      | some v => if v = PyValue.str ex then .ok (some it) else findExchange rest ex
      | Option.none => .error .attrError

/-- The missing-platform bookkeeping of lines 176-182. -/
def addMissing (stats : Stats) (okxOpt binOpt : Option Item) : Stats :=
  let s1 := if okxOpt.isNone then bumpOkxMissing stats else stats
  if binOpt.isNone then bumpBinanceMissing s1 else s1

/-- `Step5CrossCalc._merge_pair` (lines 168-252). -/
def mergePair (stats : Stats) (sym : PyValue) (items : List Item) :
    Except PyErr (Option CrossPlatformData) × Stats :=
  match findExchange items "okx" with
  | .error e => (.error e, stats)
  | .ok okxOpt =>
    match findExchange items "binance" with
    | .error e => (.error e, stats)
    | .ok binOpt =>
      match okxOpt, binOpt with
      | some a, some b =>
          match calcBlock stats a b with
          | (Option.none, s1) => (.ok Option.none, s1)
          | (some t, s1) =>
              match buildRecord sym a b t.1 t.2.1 t.2.2 with
              | .ok r => (.ok (some r), s1)
              | .error e => (.error e, s1)
      | okxOpt, binOpt => (.ok Option.none, addMissing stats okxOpt binOpt)

/-- The per-symbol merge loop of `process` (lines 124-137): an emitted record
bumps `successful`; an exception escaping `_merge_pair` bumps `failed` and
`calc_errors` and processing continues. -/
def mergeLoop (stats : Stats) :
    List (PyValue × List Item) → List CrossPlatformData × Stats
  | [] => ([], stats)
  | (sym, items) :: rest =>
      match mergePair stats sym items with
      | (.ok (some r), s1) =>
          let next := mergeLoop (bumpSuccessful s1) rest
          (r :: next.1, next.2)
      | (.ok Option.none, s1) => mergeLoop s1 rest
      | (.error _, s1) => mergeLoop (bumpCalcErrors (bumpFailed s1)) rest

/-- `Step5CrossCalc.process` (lines 97-146): `total_processed` is assigned
(not accumulated) the input length, empty input returns early, the grouping
loop may raise (unhashable symbol), then the merge loop runs.  The final
`Stats` is returned alongside the result so that counter mutations made
before an uncaught raise persist, as they do on `self.stats`. -/
def processCall (stats : Stats) (input : List Item) :
    Except PyErr (List CrossPlatformData) × Stats :=
  let stats0 := { stats with total_processed := input.length }
  if input.isEmpty then (.ok [], stats0)
  else
    match groupItems input [] with
    | .error e => (.error e, stats0)
    | .ok grouped =>
        let r := mergeLoop stats0 grouped
        (.ok r.1, r.2)

deriving instance DecidableEq for Except

/-- Concrete okx-side input record used by witnesses: the spec's end-to-end
example (`price "100"`, `funding_rate "0.01"`, timing attributes present with
value `None`). -/
def goodOkx : Item :=
  { exchange := some (.str "okx"), symbol := some (.str "X")
    latest_price := some (.str "100"), funding_rate := some (.str "0.01")
    period_seconds := some .none, countdown_seconds := some .none
    last_settlement_time := some .none, current_settlement_time := some .none
    next_settlement_time := some .none }

/-- Concrete binance-side input record used by witnesses (`price "101"`,
`funding_rate "0.02"`). -/
def goodBin : Item :=
  { exchange := some (.str "binance"), symbol := some (.str "X")
    latest_price := some (.str "101"), funding_rate := some (.str "0.02")
    period_seconds := some .none, countdown_seconds := some .none
    last_settlement_time := some .none, current_settlement_time := some .none
    next_settlement_time := some .none }

/-- Like `goodOkx`, but with the whitespace-padded price `" nan "`, which
`_safe_float` converts to a genuine NaN (the sentinel test compares the
unstripped `" nan "` against `"nan"`, and `abs(nan) > 1e15` is false). -/
def nanOkx : Item := { goodOkx with latest_price := some (.str " nan ") }

/-- A structurally valid record whose `symbol` is an unhashable object
(Python `str()` form `"[1, 2]"`). -/
def unhashItem : Item :=
  { exchange := some (.str "okx"), symbol := some (.unhashable "[1, 2]")
    latest_price := some (.str "1"), funding_rate := Option.none
    period_seconds := Option.none, countdown_seconds := Option.none
    last_settlement_time := Option.none, current_settlement_time := Option.none
    next_settlement_time := Option.none }

/-- A record with no attributes at all (dropped by `_is_basic_valid`). -/
def dummyItem : Item :=
  { exchange := Option.none, symbol := Option.none
    latest_price := Option.none, funding_rate := Option.none
    period_seconds := Option.none, countdown_seconds := Option.none
    last_settlement_time := Option.none, current_settlement_time := Option.none
    next_settlement_time := Option.none }

/-- Okx-side record with both prices positive but tiny (`"1e-11"`). -/
def lowOkx : Item := { goodOkx with latest_price := some (.str "1e-11") }

/-- Binance-side record with a tiny positive price (`"2e-11"`). -/
def lowBin : Item := { goodBin with latest_price := some (.str "2e-11") }

/-- Okx-side record with an unparseable price (`"abc"`). -/
def badPriceOkx : Item := { goodOkx with latest_price := some (.str "abc") }

/-- Whether a record's `symbol` attribute is present and hashable. -/
def symbolHashable (x : Item) : Bool :=
  match x.symbol with
  | some k => isHashable k
  | Option.none => false

/-- An arbitrary record, used only as the default of partial selectors on
concrete outputs. -/
def arbRec : CrossPlatformData :=
  { symbol := .none, price_diff := .finite 0, price_diff_percent := .finite 0
    rate_diff := .finite 0, okx_price := "", okx_funding_rate := ""
    binance_price := "", binance_funding_rate := ""
    okx_period_seconds := .none, okx_countdown_seconds := .none
    okx_last_settlement := .none, okx_current_settlement := .none
    okx_next_settlement := .none, binance_period_seconds := .none
    binance_countdown_seconds := .none, binance_last_settlement := .none
    binance_current_settlement := .none, binance_next_settlement := .none
    price_validation := "" }

/-- The merge of the spec's end-to-end pair, used by witnesses. -/
def w1res : Except PyErr (Option CrossPlatformData) × Stats :=
  mergePair initStats (.str "X") [goodOkx, goodBin]

/-- The record emitted for the end-to-end pair. -/
def w1rec : CrossPlatformData :=
  match w1res.1 with
  | .ok (some r) => r
  | _ => arbRec

/-- The output list of a full `process` call on the end-to-end pair. -/
def goodOut : List CrossPlatformData :=
  match (processCall initStats [goodOkx, goodBin]).1 with
  | .ok l => l
  | .error _ => []

/-- The single record of `goodOut`. -/
def goodRec : CrossPlatformData := goodOut.headD arbRec

/-- The output list of a `process` call whose okx price is `" nan "`. -/
def nanOut : List CrossPlatformData :=
  match (processCall initStats [nanOkx, goodBin]).1 with
  | .ok l => l
  | .error _ => []

/-- The single record of `nanOut`: its divergences are NaN-polluted. -/
def nanRec : CrossPlatformData := nanOut.headD arbRec

/-- The merge of the tiny-price pair, used by the too-low witness. -/
def w7res : Except PyErr (Option CrossPlatformData) × Stats :=
  mergePair initStats (.str "X") [lowOkx, lowBin]

/-- The record emitted for the tiny-price pair. -/
def w7rec : CrossPlatformData :=
  match w7res.1 with
  | .ok (some r) => r
  | _ => arbRec

theorem qMul_eq (a b : ℚ) : qMul a b = a * b := by
  rw [qMul, Rat.mkRat_eq_div]
  push_cast
  rw [← div_mul_div_comm, Rat.num_div_den, Rat.num_div_den]

theorem qSub_eq (a b : ℚ) : qSub a b = a - b := by
  rw [qSub, Rat.mkRat_eq_div]
  push_cast
  rw [show ((b.num : ℚ)) * ((a.den : ℚ)) = ((a.den : ℚ)) * ((b.num : ℚ)) from mul_comm _ _]
  rw [← div_sub_div _ _ (by positivity : ((a.den : ℚ)) ≠ 0)
    (by positivity : ((b.den : ℚ)) ≠ 0)]
  rw [Rat.num_div_den, Rat.num_div_den]

theorem qAbs_eq (a : ℚ) : qAbs a = |a| := by
  rw [qAbs, Rat.mkRat_eq_div]
  push_cast
  conv_rhs => rw [← Rat.num_div_den a]
  rw [abs_div, abs_of_nonneg (by positivity : (0 : ℚ) ≤ ((a.den : ℚ)))]

theorem qNeg_eq (a : ℚ) : qNeg a = -a := by
  rw [qNeg, Rat.mkRat_eq_div]
  push_cast
  rw [neg_div, Rat.num_div_den]

theorem mkRat_zero_one : mkRat 0 1 = (0 : ℚ) := by decide

/-- `<` is asymmetric on Python floats. -/
theorem pyLt_asymm (a b : PyFloat) (h : pyLt a b = true) : pyLt b a = false := by
  cases a <;> cases b <;> simp_all [pyLt]
  exact le_of_lt (by assumption)

/-- `a <= b` makes `b < a` false on Python floats. -/
theorem pyLt_of_pyLe (a b : PyFloat) (h : pyLe a b = true) : pyLt b a = false := by
  cases a <;> cases b <;> simp_all [pyLe, pyLt, pyEqNum]
  exact (by assumption : _ ∨ _).elim le_of_lt le_of_eq

/-- A non-NaN absolute value is `>= 0` in the IEEE order. -/
theorem pyLe_zero_pyAbs (x : PyFloat) (h : pyAbs x ≠ .nan) :
    pyLe (.finite 0) (pyAbs x) = true := by
  cases x with
  | finite q =>
      simp only [pyAbs, pyLe, pyLt, pyEqNum, mkRat_zero_one, qAbs_eq]
      rcases lt_or_eq_of_le (abs_nonneg q) with hlt | heq
      · simp [hlt]
      · simp [heq.symm]
  | inf => rfl
  | ninf => rfl
  | nan => simp [pyAbs] at h

theorem counterLe_refl (s : Stats) : s.counterLe s := by
  simp [Stats.counterLe]

theorem counterLe_trans {s t u : Stats} (h1 : s.counterLe t) (h2 : t.counterLe u) :
    s.counterLe u := by
  simp only [Stats.counterLe] at h1 h2 ⊢
  omega

theorem counterLe_cumLe {s t : Stats} (h : s.counterLe t) : s.cumLe t := by
  simp only [Stats.counterLe, Stats.cumLe] at h ⊢
  omega

theorem counterLe_bumpSuccessful (s : Stats) : s.counterLe (bumpSuccessful s) := by
  simp [Stats.counterLe, bumpSuccessful]

theorem counterLe_bumpFailed (s : Stats) : s.counterLe (bumpFailed s) := by
  simp [Stats.counterLe, bumpFailed]

theorem counterLe_bumpOkxMissing (s : Stats) : s.counterLe (bumpOkxMissing s) := by
  simp [Stats.counterLe, bumpOkxMissing]

theorem counterLe_bumpBinanceMissing (s : Stats) :
    s.counterLe (bumpBinanceMissing s) := by
  simp [Stats.counterLe, bumpBinanceMissing]

theorem counterLe_bumpPriceInvalid (s : Stats) :
    s.counterLe (bumpPriceInvalid s) := by
  simp [Stats.counterLe, bumpPriceInvalid]

theorem counterLe_bumpCalcErrors (s : Stats) : s.counterLe (bumpCalcErrors s) := by
  simp [Stats.counterLe, bumpCalcErrors]

theorem counterLe_bumpPriceTooLow (s : Stats) :
    s.counterLe (bumpPriceTooLow s) := by
  simp [Stats.counterLe, bumpPriceTooLow]

theorem counterLe_calcPrices (s : Stats) (va vb : PyValue) :
    s.counterLe (calcPrices s va vb).2.2 := by
  simp only [calcPrices]
  repeat' split
  all_goals
    first
      | exact counterLe_refl s
      | exact counterLe_bumpPriceInvalid s
      | exact counterLe_bumpPriceTooLow s
      | exact counterLe_trans (counterLe_bumpPriceInvalid s) (counterLe_bumpPriceTooLow _)

theorem counterLe_calcRates (pd pdp : PyFloat) (s : Stats)
    (raOpt rbOpt : Option PyValue) :
    s.counterLe (calcRates pd pdp s raOpt rbOpt).2 := by
  rcases raOpt with _ | ra <;> rcases rbOpt with _ | rb <;>
    simp only [calcRates] <;>
    first
      | exact counterLe_bumpCalcErrors s
      | exact counterLe_refl s

theorem counterLe_calcBlock (s : Stats) (a b : Item) :
    s.counterLe (calcBlock s a b).2 := by
  rcases ha : a.latest_price with _ | va <;> rcases hb : b.latest_price with _ | vb <;>
    simp only [calcBlock, ha, hb] <;>
    first
      | exact counterLe_bumpCalcErrors s
      | exact counterLe_trans (counterLe_calcPrices s va vb) (counterLe_calcRates _ _ _ _ _)

theorem counterLe_addMissing (s : Stats) (okxOpt binOpt : Option Item) :
    s.counterLe (addMissing s okxOpt binOpt) := by
  simp only [addMissing]
  repeat' split
  all_goals
    first
      | exact counterLe_refl s
      | exact counterLe_bumpOkxMissing s
      | exact counterLe_bumpBinanceMissing s
      | exact counterLe_trans (counterLe_bumpOkxMissing s) (counterLe_bumpBinanceMissing _)

theorem counterLe_mergePair (s : Stats) (sym : PyValue) (items : List Item) :
    s.counterLe (mergePair s sym items).2 := by
  cases h1 : findExchange items "okx" with
  | error e => simp only [mergePair, h1]; exact counterLe_refl s
  | ok okxOpt =>
    cases h2 : findExchange items "binance" with
    | error e => simp only [mergePair, h1, h2]; exact counterLe_refl s
    | ok binOpt =>
      rcases okxOpt with _ | a
      · simp only [mergePair, h1, h2]
        exact counterLe_addMissing s _ _
      · rcases binOpt with _ | b
        · simp only [mergePair, h1, h2]
          exact counterLe_addMissing s _ _
        · have hcb := counterLe_calcBlock s a b
          rcases h3 : calcBlock s a b with ⟨o, s1⟩
          rw [h3] at hcb
          rcases o with _ | t
          · simp only [mergePair, h1, h2, h3]
            exact hcb
          · simp only [mergePair, h1, h2, h3]
            cases h4 : buildRecord sym a b t.1 t.2.1 t.2.2 with
            | ok r => exact hcb
            | error e => exact hcb

theorem counterLe_mergeLoop (s : Stats) (gs : List (PyValue × List Item)) :
    s.counterLe (mergeLoop s gs).2 := by
  induction gs generalizing s with
  | nil => exact counterLe_refl s
  | cons g rest ih =>
    rcases g with ⟨sym, items⟩
    have hle := counterLe_mergePair s sym items
    rcases hm : mergePair s sym items with ⟨res, s1⟩
    rw [hm] at hle
    rcases res with e | o
    · simp only [mergeLoop, hm]
      exact counterLe_trans hle
        (counterLe_trans
          (counterLe_trans (counterLe_bumpFailed s1) (counterLe_bumpCalcErrors _)) (ih _))
    · rcases o with _ | r
      · simp only [mergeLoop, hm]
        exact counterLe_trans hle (ih s1)
      · simp only [mergeLoop, hm]
        exact counterLe_trans hle
          (counterLe_trans (counterLe_bumpSuccessful s1) (ih _))

theorem cumLe_setTotal (s : Stats) (n : ℕ) :
    s.cumLe { s with total_processed := n } := by
  simp [Stats.cumLe]

theorem cumLe_trans {s t u : Stats} (h1 : s.cumLe t) (h2 : t.cumLe u) : s.cumLe u := by
  simp only [Stats.cumLe] at h1 h2 ⊢
  omega

/-- Between two calls on the same instance, every counter except
`total_processed` is non-decreasing. -/
theorem cumLe_processCall (s : Stats) (input : List Item) :
    s.cumLe (processCall s input).2 := by
  simp only [processCall]
  split
  · exact cumLe_setTotal s input.length
  · cases hg : groupItems input [] with
    | error e => exact cumLe_setTotal s input.length
    | ok grouped =>
        exact cumLe_trans (cumLe_setTotal s input.length)
          (counterLe_cumLe (counterLe_mergeLoop _ grouped))

/-- `calcRates` leaves the stats unchanged or bumps only `calc_errors`. -/
theorem calcRates_stats (pd pdp : PyFloat) (s : Stats) (raOpt rbOpt : Option PyValue) :
    (calcRates pd pdp s raOpt rbOpt).2 = s ∨
      (calcRates pd pdp s raOpt rbOpt).2 = bumpCalcErrors s := by
  rcases raOpt with _ | ra <;> rcases rbOpt with _ | rb <;> simp [calcRates]

theorem succ_calcPrices (s : Stats) (va vb : PyValue) :
    (calcPrices s va vb).2.2.successful = s.successful := by
  simp only [calcPrices]
  repeat' split
  all_goals rfl

theorem total_calcPrices (s : Stats) (va vb : PyValue) :
    (calcPrices s va vb).2.2.total_processed = s.total_processed := by
  simp only [calcPrices]
  repeat' split
  all_goals rfl

theorem succ_calcBlock (s : Stats) (a b : Item) :
    (calcBlock s a b).2.successful = s.successful := by
  rcases ha : a.latest_price with _ | va <;> rcases hb : b.latest_price with _ | vb <;>
    simp only [calcBlock, ha, hb]
  case some.some =>
    rcases calcRates_stats (calcPrices s va vb).1 (calcPrices s va vb).2.1
        (calcPrices s va vb).2.2 a.funding_rate b.funding_rate with h | h <;>
      rw [h] <;> exact succ_calcPrices s va vb
  all_goals rfl

theorem total_calcBlock (s : Stats) (a b : Item) :
    (calcBlock s a b).2.total_processed = s.total_processed := by
  rcases ha : a.latest_price with _ | va <;> rcases hb : b.latest_price with _ | vb <;>
    simp only [calcBlock, ha, hb]
  case some.some =>
    rcases calcRates_stats (calcPrices s va vb).1 (calcPrices s va vb).2.1
        (calcPrices s va vb).2.2 a.funding_rate b.funding_rate with h | h <;>
      rw [h] <;> exact total_calcPrices s va vb
  all_goals rfl

theorem succ_addMissing (s : Stats) (okxOpt binOpt : Option Item) :
    (addMissing s okxOpt binOpt).successful = s.successful := by
  simp only [addMissing]
  repeat' split
  all_goals rfl

theorem total_addMissing (s : Stats) (okxOpt binOpt : Option Item) :
    (addMissing s okxOpt binOpt).total_processed = s.total_processed := by
  simp only [addMissing]
  repeat' split
  all_goals rfl

theorem succ_mergePair (s : Stats) (sym : PyValue) (items : List Item) :
    (mergePair s sym items).2.successful = s.successful := by
  cases h1 : findExchange items "okx" with
  | error e => simp only [mergePair, h1]
  | ok okxOpt =>
    cases h2 : findExchange items "binance" with
    | error e => simp only [mergePair, h1, h2]
    | ok binOpt =>
      rcases okxOpt with _ | a
      · simp only [mergePair, h1, h2]
        exact succ_addMissing s _ _
      · rcases binOpt with _ | b
        · simp only [mergePair, h1, h2]
          exact succ_addMissing s _ _
        · have hcb := succ_calcBlock s a b
          rcases h3 : calcBlock s a b with ⟨o, s1⟩
          rw [h3] at hcb
          rcases o with _ | t
          · simp only [mergePair, h1, h2, h3]
            exact hcb
          · simp only [mergePair, h1, h2, h3]
            cases h4 : buildRecord sym a b t.1 t.2.1 t.2.2 with
            | ok r => exact hcb
            | error e => exact hcb

theorem total_mergePair (s : Stats) (sym : PyValue) (items : List Item) :
    (mergePair s sym items).2.total_processed = s.total_processed := by
  cases h1 : findExchange items "okx" with
  | error e => simp only [mergePair, h1]
  | ok okxOpt =>
    cases h2 : findExchange items "binance" with
    | error e => simp only [mergePair, h1, h2]
    | ok binOpt =>
      rcases okxOpt with _ | a
      · simp only [mergePair, h1, h2]
        exact total_addMissing s _ _
      · rcases binOpt with _ | b
        · simp only [mergePair, h1, h2]
          exact total_addMissing s _ _
        · have hcb := total_calcBlock s a b
          rcases h3 : calcBlock s a b with ⟨o, s1⟩
          rw [h3] at hcb
          rcases o with _ | t
          · simp only [mergePair, h1, h2, h3]
            exact hcb
          · simp only [mergePair, h1, h2, h3]
            cases h4 : buildRecord sym a b t.1 t.2.1 t.2.2 with
            | ok r => exact hcb
            | error e => exact hcb

/-- Each emitted record bumps `successful` exactly once; nothing else does. -/
theorem succ_mergeLoop (s : Stats) (gs : List (PyValue × List Item)) :
    (mergeLoop s gs).2.successful = s.successful + (mergeLoop s gs).1.length := by
  induction gs generalizing s with
  | nil => simp [mergeLoop]
  | cons g rest ih =>
    rcases g with ⟨sym, items⟩
    rcases hm : mergePair s sym items with ⟨res, s1⟩
    have hsp : s1.successful = s.successful := by
      have h0 := succ_mergePair s sym items
      rw [hm] at h0
      exact h0
    rcases res with e | o
    · simp only [mergeLoop, hm]
      rw [ih]
      simp only [bumpCalcErrors, bumpFailed]
      omega
    · rcases o with _ | r
      · simp only [mergeLoop, hm]
        rw [ih]
        omega
      · simp only [mergeLoop, hm, List.length_cons]
        rw [ih]
        simp only [bumpSuccessful]
        omega

theorem total_mergeLoop (s : Stats) (gs : List (PyValue × List Item)) :
    (mergeLoop s gs).2.total_processed = s.total_processed := by
  induction gs generalizing s with
  | nil => rfl
  | cons g rest ih =>
    rcases g with ⟨sym, items⟩
    have hsp := total_mergePair s sym items
    rcases hm : mergePair s sym items with ⟨res, s1⟩
    rw [hm] at hsp
    rcases res with e | o
    · simp only [mergeLoop, hm]
      rw [ih]
      exact hsp
    · rcases o with _ | r
      · simp only [mergeLoop, hm]
        rw [ih]
        exact hsp
      · simp only [mergeLoop, hm]
        rw [ih]
        exact hsp

/-- `process` overwrites `total_processed` with the length of the current
input, on every path. -/
theorem total_processCall (s : Stats) (input : List Item) :
    (processCall s input).2.total_processed = input.length := by
  simp only [processCall]
  split
  · rfl
  · cases hg : groupItems input [] with
    | error e => rfl
    | ok grouped => exact total_mergeLoop _ grouped

theorem buildRecord_ok_fields (sym : PyValue) (a b : Item) (pd pdp rd : PyFloat)
    (r : CrossPlatformData) (h : buildRecord sym a b pd pdp rd = .ok r) :
    r.symbol = sym ∧ r.price_diff = pd ∧ r.price_diff_percent = pdp ∧
      r.rate_diff = rd := by
  unfold buildRecord at h
  split at h
  all_goals try exact Except.noConfusion h
  split at h
  all_goals try exact Except.noConfusion h
  injection h with h'
  subst h'
  exact ⟨rfl, rfl, rfl, rfl⟩

/-- Inversion of `_merge_pair` on emission: a record comes out of the
calculation block of a found okx/binance pair, through the constructor. -/
theorem mergePair_emit (s : Stats) (sym : PyValue) (items : List Item)
    (r : CrossPlatformData) (s' : Stats)
    (h : mergePair s sym items = (.ok (some r), s')) :
    ∃ a b t, findExchange items "okx" = .ok (some a) ∧
      findExchange items "binance" = .ok (some b) ∧
      calcBlock s a b = (some t, s') ∧
      buildRecord sym a b t.1 t.2.1 t.2.2 = .ok r := by
  unfold mergePair at h
  cases h1 : findExchange items "okx" with
  | error e => simp only [h1] at h; simp at h
  | ok okxOpt =>
    cases h2 : findExchange items "binance" with
    | error e => simp only [h1, h2] at h; simp at h
    | ok binOpt =>
      rcases okxOpt with _ | a
      · simp only [h1, h2] at h; simp at h
      · rcases binOpt with _ | b
        · simp only [h1, h2] at h; simp at h
        · rcases h3 : calcBlock s a b with ⟨o, s1⟩
          simp only [h1, h2, h3] at h
          rcases o with _ | t
          · simp at h
          · cases h4 : buildRecord sym a b t.1 t.2.1 t.2.2 with
            | error e => simp only [h4] at h; simp at h
            | ok r' =>
                simp only [h4, Prod.mk.injEq, Except.ok.injEq, Option.some.injEq] at h
                exact ⟨a, b, t, rfl, rfl, by rw [h3, h.2], by rw [h4, h.1]⟩

/-- The missing-side branch can only be reached with at least one side absent;
conversely `_merge_pair` returns `None` there without touching the stats
beyond the missing counters. -/
theorem calcRates_some_inv (pd pdp : PyFloat) (s : Stats)
    (raOpt rbOpt : Option PyValue) (t : PyFloat × PyFloat × PyFloat) (s' : Stats)
    (h : calcRates pd pdp s raOpt rbOpt = (some t, s')) :
    s' = s ∧ t.1 = pd ∧ t.2.1 = pdp ∧
      ∃ ra rb, raOpt = some ra ∧ rbOpt = some rb ∧
        t.2.2 = pyAbs (pySub ((safeFloat ra).getD (.finite 0))
          ((safeFloat rb).getD (.finite 0))) := by
  rcases raOpt with _ | ra <;> rcases rbOpt with _ | rb <;>
    simp only [calcRates, Prod.mk.injEq, Option.some.injEq] at h
  · exact absurd h.1 (by simp)
  · exact absurd h.1 (by simp)
  · exact absurd h.1 (by simp)
  · obtain ⟨ht, hs⟩ := h
    subst ht
    exact ⟨hs.symm, rfl, rfl, ra, rb, rfl, rfl, rfl⟩

/-- The first component of `calcPrices` is always the absolute difference of
the two coerced prices. -/
theorem calcPrices_fst (s : Stats) (va vb : PyValue) :
    (calcPrices s va vb).1 =
      pyAbs (pySub ((safeFloat va).getD (.finite 0))
        ((safeFloat vb).getD (.finite 0))) := by
  simp only [calcPrices]
  repeat' split
  all_goals rfl

/-- Inversion of the calculation block on success. -/
theorem calcBlock_some_inv (s : Stats) (a b : Item)
    (t : PyFloat × PyFloat × PyFloat) (s' : Stats)
    (h : calcBlock s a b = (some t, s')) :
    ∃ va vb ra rb, a.latest_price = some va ∧ b.latest_price = some vb ∧
      a.funding_rate = some ra ∧ b.funding_rate = some rb ∧
      t.1 = (calcPrices s va vb).1 ∧ t.2.1 = (calcPrices s va vb).2.1 ∧
      s' = (calcPrices s va vb).2.2 ∧
      t.2.2 = pyAbs (pySub ((safeFloat ra).getD (.finite 0))
        ((safeFloat rb).getD (.finite 0))) := by
  rcases ha : a.latest_price with _ | va <;> rcases hb : b.latest_price with _ | vb <;>
    simp only [calcBlock, ha, hb] at h
  · simp at h
  · simp at h
  · simp at h
  · obtain ⟨hs, h1, h2, ra, rb, hra, hrb, h3⟩ :=
      calcRates_some_inv (calcPrices s va vb).1 (calcPrices s va vb).2.1
        (calcPrices s va vb).2.2 a.funding_rate b.funding_rate t s' h
    exact ⟨va, vb, ra, rb, rfl, rfl, hra, hrb, h1, h2, hs, h3⟩

theorem calcPrices_parsed_big (s : Stats) (va vb : PyValue) (pA pB : PyFloat)
    (hpa : safeFloat va = some pA) (hpb : safeFloat vb = some pB)
    (h1 : pyLt (.finite 0) pA = true)
    (h2 : pyLt (.finite 0) pB = true)
    (h3 : pyLt (.finite epsFloor) (pyMin pA pB) = true) :
    calcPrices s va vb =
      (pyAbs (pySub pA pB),
       pyMul (pyDiv (pyAbs (pySub pA pB)) (pyMin pA pB)) (.finite 100),
       s) := by
  simp [calcPrices, hpa, hpb, h1, h2, h3]

theorem calcPrices_parsed_small (s : Stats) (va vb : PyValue) (pA pB : PyFloat)
    (hpa : safeFloat va = some pA) (hpb : safeFloat vb = some pB)
    (h1 : pyLt (.finite 0) pA = true)
    (h2 : pyLt (.finite 0) pB = true)
    (h3 : pyLt (.finite epsFloor) (pyMin pA pB) = false) :
    calcPrices s va vb =
      (pyAbs (pySub pA pB), .finite 0, bumpPriceTooLow s) := by
  simp [calcPrices, hpa, hpb, h1, h2, h3]

theorem calcPrices_parsed_nonpos (s : Stats) (va vb : PyValue) (pA pB : PyFloat)
    (hpa : safeFloat va = some pA) (hpb : safeFloat vb = some pB)
    (hg : (pyLt (.finite 0) pA && pyLt (.finite 0) pB) = false) :
    calcPrices s va vb = (pyAbs (pySub pA pB), .finite 0, s) := by
  simp [calcPrices, hpa, hpb, hg]

theorem pyLt_zero_zero :
    pyLt (.finite 0) (.finite 0) = false := by decide

theorem calcPrices_invalid (s : Stats) (va vb : PyValue)
    (hinv : safeFloat va = Option.none ∨ safeFloat vb = Option.none) :
    (calcPrices s va vb).2.2 = bumpPriceInvalid s := by
  rcases hinv with h | h
  · simp [calcPrices, h, pyLt_zero_zero]
  · simp [calcPrices, h, pyLt_zero_zero]

theorem pinv_calcRates (pd pdp : PyFloat) (s : Stats) (raOpt rbOpt : Option PyValue) :
    (calcRates pd pdp s raOpt rbOpt).2.price_invalid = s.price_invalid := by
  rcases calcRates_stats pd pdp s raOpt rbOpt with h | h <;> simp [h, bumpCalcErrors]

theorem tooLow_calcRates (pd pdp : PyFloat) (s : Stats) (raOpt rbOpt : Option PyValue) :
    (calcRates pd pdp s raOpt rbOpt).2.price_too_low = s.price_too_low := by
  rcases calcRates_stats pd pdp s raOpt rbOpt with h | h <;> simp [h, bumpCalcErrors]

/-- A found record is a member of the scanned list with the matching
exchange tag. -/
theorem findExchange_mem (items : List Item) (ex : String) (a : Item)
    (h : findExchange items ex = .ok (some a)) :
    a ∈ items ∧ a.exchange = some (.str ex) := by
  induction items with
  | nil => simp [findExchange] at h
  | cons it rest ih =>
    rcases hx : it.exchange with _ | v
    · simp only [findExchange, hx] at h
      exact absurd h (by simp)
    · simp only [findExchange, hx] at h
      by_cases hv : v = PyValue.str ex
      · rw [if_pos hv] at h
        simp only [Except.ok.injEq, Option.some.injEq] at h
        subst h
        exact ⟨List.mem_cons_self _ _, by rw [hx, hv]⟩
      · rw [if_neg hv] at h
        obtain ⟨hmem, hexch⟩ := ih h
        exact ⟨List.mem_cons_of_mem _ hmem, hexch⟩

/-- Scanning a list in which no record carries the wanted exchange (and every
record has an `exchange` attribute) finds nothing. -/
theorem findExchange_not_found (items : List Item) (ex : String)
    (hall : ∀ it ∈ items, ∃ v, it.exchange = some v)
    (hno : ∀ it ∈ items, it.exchange ≠ some (.str ex)) :
    findExchange items ex = .ok Option.none := by
  induction items with
  | nil => rfl
  | cons it rest ih =>
    obtain ⟨v, hv⟩ := hall it (List.mem_cons_self it rest)
    have hne : ¬ v = PyValue.str ex := by
      intro he
      exact hno it (List.mem_cons_self it rest) (by rw [hv, he])
    simp only [findExchange, hv, if_neg hne]
    exact ih (fun x hx => hall x (List.mem_cons_of_mem _ hx))
      (fun x hx => hno x (List.mem_cons_of_mem _ hx))

/-- First-match-wins on an immediately matching head. -/
theorem findExchange_head (it : Item) (rest : List Item) (ex : String)
    (h : it.exchange = some (.str ex)) :
    findExchange (it :: rest) ex = .ok (some it) := by
  simp [findExchange, h]

theorem keysOf_groupInsert (g : List (PyValue × List Item)) (k : PyValue) (it : Item) :
    keysOf (groupInsert g k it) =
      if k ∈ keysOf g then keysOf g else keysOf g ++ [k] := by
  induction g with
  | nil => simp [groupInsert, keysOf]
  | cons p rest ih =>
    rcases p with ⟨k', l⟩
    by_cases hk : k' = k
    · subst hk
      simp [groupInsert, keysOf, List.mem_cons]
    · simp only [groupInsert, if_neg hk, keysOf, List.map_cons] at ih ⊢
      rw [ih]
      by_cases hm : k ∈ List.map Prod.fst rest
      · rw [if_pos hm, if_pos (List.mem_cons_of_mem _ hm)]
      · rw [if_neg hm, if_neg ?hnc, List.cons_append]
        case hnc =>
          intro hcon
          rcases List.mem_cons.mp hcon with he | hmem
          · exact hk he.symm
          · exact hm hmem

theorem nodup_keysOf_groupInsert (g : List (PyValue × List Item)) (k : PyValue)
    (it : Item) (h : (keysOf g).Nodup) : (keysOf (groupInsert g k it)).Nodup := by
  rw [keysOf_groupInsert]
  split
  · exact h
  · rename_i hnm
    simp [List.nodup_append, h, hnm]

/-- `groupInsert` preserves a per-group membership invariant. -/
theorem groupInsert_prop (P : PyValue → Item → Prop)
    (g : List (PyValue × List Item)) (k : PyValue) (it : Item)
    (hg : ∀ p ∈ g, ∀ x ∈ p.2, P p.1 x) (hit : P k it) :
    ∀ p ∈ groupInsert g k it, ∀ x ∈ p.2, P p.1 x := by
  induction g with
  | nil =>
      intro p hp x hx
      simp only [groupInsert, List.mem_singleton] at hp
      subst hp
      simp only [List.mem_singleton] at hx
      subst hx
      exact hit
  | cons q rest ih =>
    rcases q with ⟨k', l⟩
    by_cases hk : k' = k
    · subst hk
      intro p hp x hx
      simp only [groupInsert, if_pos rfl, ite_true, eq_self_iff_true, List.mem_cons] at hp
      rcases hp with hp | hp
      · subst hp
        simp only [List.mem_append, List.mem_singleton] at hx
        rcases hx with hx | hx
        · exact hg (k', l) (List.mem_cons_self _ _) x hx
        · subst hx
          exact hit
      · exact hg p (List.mem_cons_of_mem _ hp) x hx
    · intro p hp x hx
      simp only [groupInsert, if_neg hk, List.mem_cons] at hp
      rcases hp with hp | hp
      · subst hp
        exact hg (k', l) (List.mem_cons_self _ _) x hx
      · exact ih (fun q hq y hy => hg q (List.mem_cons_of_mem _ hq) y hy) p hp x hx

/-- `groupStep` preserves the per-group invariant. -/
theorem groupStep_prop (P : PyValue → Item → Prop)
    (acc g' : List (PyValue × List Item)) (it : Item)
    (hacc : ∀ p ∈ acc, ∀ x ∈ p.2, P p.1 x)
    (hit : basicValid it = true → ∀ k, it.symbol = some k → P k it)
    (hs : groupStep acc it = .ok g') :
    ∀ p ∈ g', ∀ x ∈ p.2, P p.1 x := by
  unfold groupStep at hs
  by_cases hv : basicValid it = true
  · rw [if_pos hv] at hs
    cases hsym : it.symbol with
    | none => simp only [hsym] at hs; exact absurd hs (by simp)
    | some k =>
        simp only [hsym] at hs
        by_cases hh : isHashable k = true
        · rw [if_pos hh] at hs
          simp only [Except.ok.injEq] at hs
          subst hs
          exact groupInsert_prop P acc k it hacc (hit hv k hsym)
        · rw [if_neg hh] at hs
          exact absurd hs (by simp)
  · rw [if_neg hv] at hs
    simp only [Except.ok.injEq] at hs
    subst hs
    exact hacc

theorem groupStep_nodup (acc g' : List (PyValue × List Item)) (it : Item)
    (h : (keysOf acc).Nodup) (hs : groupStep acc it = .ok g') :
    (keysOf g').Nodup := by
  unfold groupStep at hs
  by_cases hv : basicValid it = true
  · rw [if_pos hv] at hs
    cases hsym : it.symbol with
    | none => simp only [hsym] at hs; exact absurd hs (by simp)
    | some k =>
        simp only [hsym] at hs
        by_cases hh : isHashable k = true
        · rw [if_pos hh] at hs
          simp only [Except.ok.injEq] at hs
          subst hs
          exact nodup_keysOf_groupInsert acc k it h
        · rw [if_neg hh] at hs
          exact absurd hs (by simp)
  · rw [if_neg hv] at hs
    simp only [Except.ok.injEq] at hs
    subst hs
    exact h

theorem groupItems_prop (P : PyValue → Item → Prop) :
    ∀ (input : List Item) (acc g : List (PyValue × List Item)),
      (∀ x ∈ input, basicValid x = true → ∀ k, x.symbol = some k → P k x) →
      (∀ p ∈ acc, ∀ x ∈ p.2, P p.1 x) →
      groupItems input acc = .ok g →
      ∀ p ∈ g, ∀ x ∈ p.2, P p.1 x := by
  intro input
  induction input with
  | nil =>
      intro acc g _ hacc h
      simp only [groupItems, Except.ok.injEq] at h
      subst h
      exact hacc
  | cons it rest ih =>
    intro acc g hin hacc h
    simp only [groupItems] at h
    cases hs : groupStep acc it with
    | error e => rw [hs] at h; exact absurd h (by simp)
    | ok g' =>
        rw [hs] at h
        refine ih g' g (fun x hx => hin x (List.mem_cons_of_mem _ hx)) ?_ h
        exact groupStep_prop P acc g' it hacc
          (hin it (List.mem_cons_self _ _)) hs

theorem groupItems_nodup :
    ∀ (input : List Item) (acc g : List (PyValue × List Item)),
      (keysOf acc).Nodup → groupItems input acc = .ok g → (keysOf g).Nodup := by
  intro input
  induction input with
  | nil =>
      intro acc g hacc h
      simp only [groupItems, Except.ok.injEq] at h
      subst h
      exact hacc
  | cons it rest ih =>
    intro acc g hacc h
    simp only [groupItems] at h
    cases hs : groupStep acc it with
    | error e => rw [hs] at h; exact absurd h (by simp)
    | ok g' =>
        rw [hs] at h
        exact ih g' g (groupStep_nodup acc g' it hacc hs) h

/-- The symbols of the produced records form a sublist of the group keys. -/
theorem mergeLoop_symbols_sublist (s : Stats) (gs : List (PyValue × List Item)) :
    ((mergeLoop s gs).1.map (fun r => r.symbol)).Sublist (keysOf gs) := by
  induction gs generalizing s with
  | nil => simp [mergeLoop, keysOf]
  | cons g rest ih =>
    rcases g with ⟨sym, items⟩
    rcases hm : mergePair s sym items with ⟨res, s1⟩
    rcases res with e | o
    · simp only [mergeLoop, hm, keysOf, List.map_cons]
      exact List.Sublist.cons _ (ih _)
    · rcases o with _ | r
      · simp only [mergeLoop, hm, keysOf, List.map_cons]
        exact List.Sublist.cons _ (ih _)
      · have hsym : r.symbol = sym := by
          obtain ⟨a, b, t, _, _, _, h4⟩ := mergePair_emit s sym items r s1 hm
          exact (buildRecord_ok_fields sym a b t.1 t.2.1 t.2.2 r h4).1
        simp only [mergeLoop, hm, keysOf, List.map_cons, hsym]
        exact List.Sublist.cons₂ _ (ih _)

/-- Every produced record was emitted by `_merge_pair` on some group. -/
theorem mergeLoop_mem (s : Stats) (gs : List (PyValue × List Item))
    (r : CrossPlatformData) (hr : r ∈ (mergeLoop s gs).1) :
    ∃ p ∈ gs, ∃ s0 s1, mergePair s0 p.1 p.2 = (.ok (some r), s1) := by
  induction gs generalizing s with
  | nil => simp [mergeLoop] at hr
  | cons g rest ih =>
    rcases g with ⟨sym, items⟩
    rcases hm : mergePair s sym items with ⟨res, s1⟩
    rcases res with e | o
    · simp only [mergeLoop, hm] at hr
      obtain ⟨p, hp, hex⟩ := ih _ hr
      exact ⟨p, List.mem_cons_of_mem _ hp, hex⟩
    · rcases o with _ | r'
      · simp only [mergeLoop, hm] at hr
        obtain ⟨p, hp, hex⟩ := ih _ hr
        exact ⟨p, List.mem_cons_of_mem _ hp, hex⟩
      · simp only [mergeLoop, hm, List.mem_cons] at hr
        rcases hr with hr | hr
        · subst hr
          exact ⟨(sym, items), List.mem_cons_self _ _, s, s1, hm⟩
        · obtain ⟨p, hp, hex⟩ := ih _ hr
          exact ⟨p, List.mem_cons_of_mem _ hp, hex⟩

/-- Inversion of `process` on a normal return: the output and final stats come
from the merge loop over the grouping of the input. -/
theorem processCall_ok_inv (s : Stats) (input : List Item)
    (out : List CrossPlatformData) (s' : Stats)
    (h : processCall s input = (.ok out, s')) :
    ∃ grouped, groupItems input [] = .ok grouped ∧
      mergeLoop { s with total_processed := input.length } grouped = (out, s') := by
  simp only [processCall] at h
  split at h
  · rename_i he
    simp only [Prod.mk.injEq, Except.ok.injEq] at h
    rw [List.isEmpty_iff] at he
    subst he
    exact ⟨[], rfl, by simp [mergeLoop, ← h.1, ← h.2]⟩
  · cases hg : groupItems input [] with
    | error e => rw [hg] at h; simp at h
    | ok grouped =>
        rw [hg] at h
        simp only [Prod.mk.injEq, Except.ok.injEq] at h
        exact ⟨grouped, rfl, by rw [← h.1, ← h.2]⟩

/-- Every record of a normal `process` return stems from a structurally valid
okx record and a structurally valid binance record of the input, both carrying
the record's symbol. -/
theorem processCall_record_sources (s : Stats) (input : List Item)
    (out : List CrossPlatformData) (s' : Stats)
    (h : processCall s input = (.ok out, s')) (r : CrossPlatformData)
    (hr : r ∈ out) :
    (∃ a, a ∈ input ∧ basicValid a = true ∧ a.exchange = some (.str "okx") ∧
      a.symbol = some r.symbol) ∧
    (∃ b, b ∈ input ∧ basicValid b = true ∧ b.exchange = some (.str "binance") ∧
      b.symbol = some r.symbol) := by
  obtain ⟨grouped, hg, hm⟩ := processCall_ok_inv s input out s' h
  have hr' : r ∈ (mergeLoop { s with total_processed := input.length } grouped).1 := by
    rw [hm]
    exact hr
  obtain ⟨p, hp, s0, s1, hmp⟩ := mergeLoop_mem _ grouped r hr'
  obtain ⟨a, b, t, hfa, hfb, _, hbr⟩ := mergePair_emit s0 p.1 p.2 r s1 hmp
  have hrs : r.symbol = p.1 := (buildRecord_ok_fields _ _ _ _ _ _ _ hbr).1
  have hinv := groupItems_prop
    (fun k x => x ∈ input ∧ basicValid x = true ∧ x.symbol = some k)
    input [] grouped (fun x hx hv k hk => ⟨hx, hv, hk⟩) (by simp) hg
  obtain ⟨hamem, haex⟩ := findExchange_mem p.2 "okx" a hfa
  obtain ⟨hbmem, hbex⟩ := findExchange_mem p.2 "binance" b hfb
  obtain ⟨hain, hav, hasym⟩ := hinv p hp a hamem
  obtain ⟨hbin, hbv, hbsym⟩ := hinv p hp b hbmem
  rw [hrs]
  exact ⟨⟨a, hain, hav, haex, hasym⟩, ⟨b, hbin, hbv, hbex, hbsym⟩⟩

/-- A non-NaN result of `pyAbs` is `>= 0`; the only other possibility is
NaN itself. -/
theorem pyAbs_nonneg_or_nan (x : PyFloat) :
    pyLe (.finite 0) (pyAbs x) = true ∨ pyAbs x = .nan := by
  cases x with
  | finite q => exact Or.inl (pyLe_zero_pyAbs (.finite q) (by simp [pyAbs]))
  | inf => exact Or.inl rfl
  | ninf => exact Or.inl rfl
  | nan => exact Or.inr rfl

/-- C1: for every symbol whose group contains a record from each of the two
exchanges, and whose two prices parse (via the numeric-safety parser) to
strictly positive values with minimum greater than `1e-10`, the emitted
MergedRecord has `price_divergence_percent` equal to
`|price_A - price_B| / min(price_A, price_B) * 100` (computed in Python float
arithmetic). -/
theorem price_divergence_percent_formula
    (s : Stats) (sym : PyValue) (items : List Item) (r : CrossPlatformData)
    (s' : Stats) (a b : Item) (va vb : PyValue) (pA pB : PyFloat)
    (hfa : findExchange items "okx" = .ok (some a))
    (hfb : findExchange items "binance" = .ok (some b))
    (hva : a.latest_price = some va) (hvb : b.latest_price = some vb)
    (hpa : safeFloat va = some pA) (hpb : safeFloat vb = some pB)
    (hposA : pyLt (.finite 0) pA = true) (hposB : pyLt (.finite 0) pB = true)
    (hmin : pyLt (.finite epsFloor) (pyMin pA pB) = true)
    (hout : mergePair s sym items = (.ok (some r), s')) :
    r.price_diff_percent =
      pyMul (pyDiv (pyAbs (pySub pA pB)) (pyMin pA pB)) (.finite 100) := by
  obtain ⟨a', b', t, hfa', hfb', hcb, hbr⟩ := mergePair_emit s sym items r s' hout
  rw [hfa] at hfa'
  rw [hfb] at hfb'
  simp only [Except.ok.injEq, Option.some.injEq] at hfa' hfb'
  subst hfa'
  subst hfb'
  obtain ⟨va', vb', ra, rb, hva', hvb', _, _, ht1, ht21, hs', ht22⟩ :=
    calcBlock_some_inv s a b t s' hcb
  rw [hva] at hva'
  rw [hvb] at hvb'
  simp only [Option.some.injEq] at hva' hvb'
  subst hva'
  subst hvb'
  have hpct := (buildRecord_ok_fields sym a b t.1 t.2.1 t.2.2 r hbr).2.2.1
  rw [hpct, ht21, calcPrices_parsed_big s va vb pA pB hpa hpb hposA hposB hmin]

/-- C1 witness: the end-to-end pair (`"100"`, `"101"`) instantiates the
formula theorem. -/
theorem price_divergence_percent_formula_witness :
    w1rec.price_diff_percent =
      pyMul (pyDiv (pyAbs (pySub (.finite 100) (.finite 101)))
        (pyMin (.finite 100) (.finite 101))) (.finite 100) :=
  price_divergence_percent_formula initStats (.str "X") [goodOkx, goodBin]
    w1rec w1res.2 goodOkx goodBin (.str "100") (.str "101")
    (.finite 100) (.finite 101) (by decide) (by decide) (by decide) (by decide)
    (by decide) (by decide) (by decide) (by decide) (by decide) (by decide)

/-- C2 counterexample: a value whose magnitude exceeds `1e15` but converts
only via the comma-stripping fallback is returned as parsed (the fallback
performs no ceiling check), contradicting the claim for such values. -/
theorem safe_float_fallback_ceiling_cex :
    safeFloat (.str "1,000,000,000,000,000,000") =
      some (.finite (mkRat (Int.ofNat ((10 : ℕ) ^ 18)) 1)) := by decide

/-- C2 (amended): the numeric-safety parser is a total function returning
unparseable for `None`, for the case-insensitive sentinels `"nan"`, `"inf"`,
`"-inf"`, for non-numeric text such as `"abc"`, and for every value whose
direct conversion has magnitude above `1e15`; `"1,234.5"` parses to `1234.5`
via the comma-stripping fallback.  Values that convert only via the fallback
are returned without the magnitude check. -/
theorem safe_float_behavior :
    (∀ (v : PyValue) (x : PyFloat), pyFloatOf v = .ok x → pyAbsGtCeil x = true →
      safeFloat v = Option.none) ∧
    safeFloat .none = Option.none ∧
    (∀ s ∈ ["nan", "naN", "nAn", "nAN", "Nan", "NaN", "NAn", "NAN",
            "inf", "inF", "iNf", "iNF", "Inf", "InF", "INf", "INF",
            "-inf", "-inF", "-iNf", "-iNF", "-Inf", "-InF", "-INf", "-INF"],
      safeFloat (.str s) = Option.none) ∧
    safeFloat (.str "abc") = Option.none ∧
    safeFloat (.str "1,234.5") = some (.finite (mkRat 12345 10)) := by
  refine ⟨?_, by decide, by decide, by decide, by decide⟩
  intro v x h1 h2
  cases v with
  | none => simp [pyFloatOf] at h1
  | str s =>
      simp only [safeFloat, h1, h2]
      split
      · rfl
      · simp [h2]
  | num y =>
      simp only [safeFloat, h1, h2]
      split
      · rfl
      · simp [h2]
  | unhashable w => simp [pyFloatOf] at h1

/-- C2 witness: `"2e16"` converts directly to a value above the ceiling and is
rejected. -/
theorem safe_float_behavior_witness :
    pyFloatOf (.str "2e16") =
        .ok (.finite (mkRat (Int.ofNat (2 * (10 : ℕ) ^ 16)) 1)) ∧
    pyAbsGtCeil (.finite (mkRat (Int.ofNat (2 * (10 : ℕ) ^ 16)) 1)) = true ∧
    safeFloat (.str "2e16") = Option.none :=
  ⟨by decide, by decide,
    safe_float_behavior.1 (.str "2e16")
      (.finite (mkRat (Int.ofNat (2 * (10 : ℕ) ^ 16)) 1)) (by decide) (by decide)⟩

/-- C3 counterexample: the okx price `" nan "` slips through `_safe_float`
(the sentinel test compares the unstripped string, `abs(nan) > 1e15` is
false), so the emitted record's `price_divergence` is NaN — defined, but not
non-negative in the IEEE order. -/
theorem emitted_divergence_nan_cex :
    (processCall initStats [nanOkx, goodBin]).1 = .ok [nanRec] ∧
    nanRec.price_diff = .nan ∧
    pyLe (.finite 0) nanRec.price_diff = false := by decide

/-- C3 (amended): in every emitted MergedRecord, `price_divergence` and
`rate_divergence` are defined (they are total fields, never null) and are
non-negative unless they are NaN (which only non-finite parsed inputs such as
`" nan "` can produce); a price or rate that fails to parse is coerced to
zero before the divergence is computed. -/
theorem emitted_divergence_nonneg_unless_nan :
    (∀ (s : Stats) (input : List Item) (out : List CrossPlatformData)
       (s' : Stats), processCall s input = (.ok out, s') → ∀ r ∈ out,
      (pyLe (.finite 0) r.price_diff = true ∨ r.price_diff = .nan) ∧
      (pyLe (.finite 0) r.rate_diff = true ∨ r.rate_diff = .nan)) ∧
    (∀ (s : Stats) (va vb : PyValue) (pB : PyFloat), safeFloat va = Option.none →
      safeFloat vb = some pB →
      (calcPrices s va vb).1 = pyAbs (pySub (.finite 0) pB)) ∧
    (∀ (s : Stats) (va vb : PyValue) (pA : PyFloat), safeFloat va = some pA →
      safeFloat vb = Option.none →
      (calcPrices s va vb).1 = pyAbs (pySub pA (.finite 0))) ∧
    (∀ (s : Stats) (va vb : PyValue), safeFloat va = Option.none →
      safeFloat vb = Option.none →
      (calcPrices s va vb).1 = pyAbs (pySub (.finite 0) (.finite 0))) := by
  refine ⟨?_, ?_, ?_, ?_⟩
  · intro s input out s' h r hr
    obtain ⟨grouped, hg, hm⟩ := processCall_ok_inv s input out s' h
    have hr' : r ∈ (mergeLoop { s with total_processed := input.length } grouped).1 := by
      rw [hm]
      exact hr
    obtain ⟨p, hp, s0, s1, hmp⟩ := mergeLoop_mem _ grouped r hr'
    obtain ⟨a, b, t, _, _, hcb, hbr⟩ := mergePair_emit s0 p.1 p.2 r s1 hmp
    obtain ⟨va, vb, ra, rb, _, _, _, _, ht1, _, _, ht22⟩ :=
      calcBlock_some_inv s0 a b t s1 hcb
    obtain ⟨_, hpd, _, hrd⟩ := buildRecord_ok_fields p.1 a b t.1 t.2.1 t.2.2 r hbr
    constructor
    · rw [hpd, ht1, calcPrices_fst]
      exact pyAbs_nonneg_or_nan _
    · rw [hrd, ht22]
      exact pyAbs_nonneg_or_nan _
  · intro s va vb pB h1 h2
    simp [calcPrices_fst, h1, h2]
  · intro s va vb pA h1 h2
    simp [calcPrices_fst, h1, h2]
  · intro s va vb h1 h2
    simp [calcPrices_fst, h1, h2]

/-- C3 witness: the end-to-end record satisfies the non-negativity
disjunction. -/
theorem emitted_divergence_nonneg_unless_nan_witness :
    (pyLe (.finite 0) goodRec.price_diff = true ∨ goodRec.price_diff = .nan) ∧
    (pyLe (.finite 0) goodRec.rate_diff = true ∨ goodRec.rate_diff = .nan) :=
  emitted_divergence_nonneg_unless_nan.1 initStats [goodOkx, goodBin] goodOut
    (processCall initStats [goodOkx, goodBin]).2 (by decide) goodRec (by decide)

/-- C4 counterexample: `total_processed` is assigned the input length, not
accumulated — a call with one (even invalid) record followed by a call with an
empty batch makes it decrease, so it is reset between calls. -/
theorem total_processed_reset_cex :
    (processCall (processCall initStats [dummyItem]).2 []).2.total_processed <
      (processCall initStats [dummyItem]).2.total_processed := by decide

/-- C4 (amended): within one `process` call every counter is monotonically
non-decreasing across symbols (the merge loop only increments); between
consecutive calls on the same instance every counter except records-processed
is non-decreasing; records-processed is overwritten at the start of each call
with that call's input length. -/
theorem counters_monotone_amended :
    (∀ (s : Stats) (gs : List (PyValue × List Item)),
      s.counterLe (mergeLoop s gs).2) ∧
    (∀ (s : Stats) (input : List Item), s.cumLe (processCall s input).2) ∧
    (∀ (s : Stats) (input : List Item),
      (processCall s input).2.total_processed = input.length) :=
  ⟨counterLe_mergeLoop, cumLe_processCall, total_processCall⟩

/-- C5 counterexample: a structurally valid record whose `symbol` value is
unhashable (here a list, `str()` form `"[1, 2]"`) makes the grouping dict
lookup raise `TypeError`, which `process` does not catch. -/
theorem process_raises_unhashable_cex :
    (processCall initStats [unhashItem]).1 = .error .typeError ∧
    basicValid unhashItem = true := by decide

/-- Grouping cannot fail when every structurally valid record has a hashable
symbol value. -/
theorem groupItems_ok :
    ∀ (input : List Item) (acc : List (PyValue × List Item)),
      (∀ x ∈ input, basicValid x = true → symbolHashable x = true) →
      ∃ g, groupItems input acc = .ok g := by
  intro input
  induction input with
  | nil => intro acc _; exact ⟨acc, rfl⟩
  | cons it rest ih =>
    intro acc h
    have hstep : ∃ g', groupStep acc it = .ok g' := by
      unfold groupStep
      by_cases hv : basicValid it = true
      · rw [if_pos hv]
        have hs := h it (List.mem_cons_self _ _) hv
        unfold symbolHashable at hs
        cases hsym : it.symbol with
        | none => rw [hsym] at hs; cases hs
        | some k =>
            rw [hsym] at hs
            simp only [hsym]
            rw [if_pos hs]
            exact ⟨groupInsert acc k it, rfl⟩
      · rw [if_neg hv]
        exact ⟨acc, rfl⟩
    obtain ⟨g', hg'⟩ := hstep
    obtain ⟨g, hgr⟩ := ih g' (fun x hx => h x (List.mem_cons_of_mem _ hx))
    exact ⟨g, by simp only [groupItems, hg', hgr]⟩

/-- C5 (amended): `process` never raises — returning a (possibly partial or
empty) list and recording failures only in the counters — provided every
structurally valid input record's `symbol` value is hashable; a valid record
with an unhashable symbol makes the grouping dict raise `TypeError`. -/
theorem process_no_raise_hashable
    (s : Stats) (input : List Item)
    (h : ∀ x ∈ input, basicValid x = true → symbolHashable x = true) :
    ∃ out s', processCall s input = (.ok out, s') := by
  by_cases he : input.isEmpty = true
  · exact ⟨[], { s with total_processed := input.length },
      by simp [processCall, he]⟩
  · obtain ⟨g, hg⟩ := groupItems_ok input [] h
    refine ⟨(mergeLoop { s with total_processed := input.length } g).1,
      (mergeLoop { s with total_processed := input.length } g).2, ?_⟩
    simp [processCall, he, hg]

/-- C5 witness: the end-to-end input has hashable symbols, so `process`
returns normally on it. -/
theorem process_no_raise_hashable_witness :
    ∃ out s', processCall initStats [goodOkx, goodBin] = (.ok out, s') :=
  process_no_raise_hashable initStats [goodOkx, goodBin] (by decide)

/-- C6: for a nonempty symbol group containing only records of the two
recognized exchanges, if one exchange is absent then `_merge_pair` emits
nothing and bumps exactly that exchange's missing counter; and at process
level no record for such a symbol is emitted. -/
theorem missing_side_counted
    (s : Stats) (sym : PyValue) (items : List Item)
    (hne : items ≠ [])
    (hval : ∀ it ∈ items, it.exchange = some (.str "okx") ∨
      it.exchange = some (.str "binance")) :
    ((∀ it ∈ items, it.exchange ≠ some (.str "okx")) →
      mergePair s sym items = (.ok Option.none, bumpOkxMissing s)) ∧
    ((∀ it ∈ items, it.exchange ≠ some (.str "binance")) →
      mergePair s sym items = (.ok Option.none, bumpBinanceMissing s)) ∧
    (∀ (input : List Item) (out : List CrossPlatformData) (s' : Stats),
      processCall s input = (.ok out, s') →
      (∀ it ∈ input, basicValid it = true → it.symbol = some sym →
        it.exchange ≠ some (.str "okx")) →
      ∀ r ∈ out, r.symbol ≠ sym) := by
  refine ⟨?_, ?_, ?_⟩
  · intro hno
    rcases items with _ | ⟨it, rest⟩
    · exact absurd rfl hne
    have hbin : it.exchange = some (.str "binance") := by
      rcases hval it (List.mem_cons_self _ _) with hx | hx
      · exact absurd hx (hno it (List.mem_cons_self _ _))
      · exact hx
    have hfo : findExchange (it :: rest) "okx" = .ok Option.none :=
      findExchange_not_found _ _
        (fun x hx => by
          rcases hval x hx with h1 | h1
          · exact ⟨_, h1⟩
          · exact ⟨_, h1⟩)
        hno
    have hfb : findExchange (it :: rest) "binance" = .ok (some it) :=
      findExchange_head it rest "binance" hbin
    simp [mergePair, hfo, hfb, addMissing, bumpOkxMissing]
  · intro hno
    rcases items with _ | ⟨it, rest⟩
    · exact absurd rfl hne
    have hokx : it.exchange = some (.str "okx") := by
      rcases hval it (List.mem_cons_self _ _) with hx | hx
      · exact hx
      · exact absurd hx (hno it (List.mem_cons_self _ _))
    have hfo : findExchange (it :: rest) "okx" = .ok (some it) :=
      findExchange_head it rest "okx" hokx
    have hfb : findExchange (it :: rest) "binance" = .ok Option.none :=
      findExchange_not_found _ _
        (fun x hx => by
          rcases hval x hx with h1 | h1
          · exact ⟨_, h1⟩
          · exact ⟨_, h1⟩)
        hno
    simp [mergePair, hfo, hfb, addMissing, bumpBinanceMissing]
  · intro input out s' h hno r hr hrs
    obtain ⟨⟨a, hain, hav, haex, hasym⟩, _⟩ :=
      processCall_record_sources s input out s' h r hr
    rw [hrs] at hasym
    exact hno a hain hav hasym haex

/-- C6 witness: a group holding only a binance record emits nothing and bumps
`okx_missing` by one. -/
theorem missing_side_counted_witness :
    mergePair initStats (.str "X") [goodBin] =
      (.ok Option.none, bumpOkxMissing initStats) :=
  (missing_side_counted initStats (.str "X") [goodBin] (by decide)
    (by decide)).1 (by decide)

/-- C7: for every merged symbol with both prices parsed, if both parsed
prices are strictly positive but their minimum is below `1e-10`, the emitted
`price_divergence_percent` is exactly `0.0` and the too-low counter is bumped
by one; if at least one parsed price is non-positive, the percentage is `0.0`
and the too-low counter is untouched. -/
theorem too_low_and_nonpositive_percent
    (s : Stats) (sym : PyValue) (items : List Item) (r : CrossPlatformData)
    (s' : Stats) (a b : Item) (va vb : PyValue) (pA pB : PyFloat)
    (hfa : findExchange items "okx" = .ok (some a))
    (hfb : findExchange items "binance" = .ok (some b))
    (hva : a.latest_price = some va) (hvb : b.latest_price = some vb)
    (hpa : safeFloat va = some pA) (hpb : safeFloat vb = some pB)
    (hout : mergePair s sym items = (.ok (some r), s')) :
    ((pyLt (.finite 0) pA = true → pyLt (.finite 0) pB = true →
      pyLt (pyMin pA pB) (.finite epsFloor) = true →
      r.price_diff_percent = .finite 0 ∧
        s'.price_too_low = s.price_too_low + 1) ∧
     ((pyLe pA (.finite 0) = true ∨ pyLe pB (.finite 0) = true) →
      r.price_diff_percent = .finite 0 ∧
        s'.price_too_low = s.price_too_low)) := by
  obtain ⟨a', b', t, hfa', hfb', hcb, hbr⟩ := mergePair_emit s sym items r s' hout
  rw [hfa] at hfa'
  rw [hfb] at hfb'
  simp only [Except.ok.injEq, Option.some.injEq] at hfa' hfb'
  subst hfa'
  subst hfb'
  obtain ⟨va', vb', ra, rb, hva', hvb', _, _, ht1, ht21, hs', ht22⟩ :=
    calcBlock_some_inv s a b t s' hcb
  rw [hva] at hva'
  rw [hvb] at hvb'
  simp only [Option.some.injEq] at hva' hvb'
  subst hva'
  subst hvb'
  have hpct := (buildRecord_ok_fields sym a b t.1 t.2.1 t.2.2 r hbr).2.2.1
  constructor
  · intro hposA hposB hsmall
    have hminlt : pyLt (.finite epsFloor) (pyMin pA pB) = false :=
      pyLt_asymm _ _ hsmall
    rw [hpct, ht21, hs',
      calcPrices_parsed_small s va vb pA pB hpa hpb hposA hposB hminlt]
    exact ⟨rfl, rfl⟩
  · intro hnp
    have hg : (pyLt (.finite 0) pA && pyLt (.finite 0) pB) = false := by
      rcases hnp with hx | hx
      · rw [pyLt_of_pyLe pA (.finite 0) hx]
        rfl
      · rw [pyLt_of_pyLe pB (.finite 0) hx, Bool.and_false]
    rw [hpct, ht21, hs', calcPrices_parsed_nonpos s va vb pA pB hpa hpb hg]
    exact ⟨rfl, rfl⟩

/-- C7 witness: the tiny positive prices `"1e-11"` and `"2e-11"` trigger the
too-low branch. -/
theorem too_low_and_nonpositive_percent_witness :
    w7rec.price_diff_percent = .finite 0 ∧
      w7res.2.price_too_low = initStats.price_too_low + 1 :=
  (too_low_and_nonpositive_percent initStats (.str "X") [lowOkx, lowBin]
    w7rec w7res.2 lowOkx lowBin (.str "1e-11") (.str "2e-11")
    (.finite (mkRat 1 ((10 : ℕ) ^ 11))) (.finite (mkRat 2 ((10 : ℕ) ^ 11)))
    (by decide) (by decide) (by decide) (by decide) (by decide) (by decide)
    (by decide)).1 (by decide) (by decide) (by decide)

/-- C8: the output of `process` contains at most one MergedRecord per symbol,
and a record exists only if the input contained a structurally valid record
from each of the two exchanges for that symbol. -/
theorem one_record_per_symbol
    (s : Stats) (input : List Item) (out : List CrossPlatformData) (s' : Stats)
    (h : processCall s input = (.ok out, s')) :
    (out.map (fun r => r.symbol)).Nodup ∧
    ∀ r ∈ out,
      (∃ a, a ∈ input ∧ basicValid a = true ∧ a.exchange = some (.str "okx") ∧
        a.symbol = some r.symbol) ∧
      (∃ b, b ∈ input ∧ basicValid b = true ∧
        b.exchange = some (.str "binance") ∧ b.symbol = some r.symbol) := by
  obtain ⟨grouped, hg, hm⟩ := processCall_ok_inv s input out s' h
  constructor
  · have hs := mergeLoop_symbols_sublist { s with total_processed := input.length } grouped
    rw [hm] at hs
    exact List.Nodup.sublist hs (groupItems_nodup input [] grouped (by simp [keysOf]) hg)
  · intro r hr
    exact processCall_record_sources s input out s' h r hr

/-- C8 witness: the end-to-end output has pairwise distinct symbols. -/
theorem one_record_per_symbol_witness :
    (goodOut.map (fun r => r.symbol)).Nodup :=
  (one_record_per_symbol initStats [goodOkx, goodBin] goodOut
    (processCall initStats [goodOkx, goodBin]).2 (by decide)).1

/-- C9: on every normal `process` return, the successful counter grows by
exactly the length of the returned list. -/
theorem successful_counts_emitted
    (s : Stats) (input : List Item) (out : List CrossPlatformData) (s' : Stats)
    (h : processCall s input = (.ok out, s')) :
    s'.successful = s.successful + out.length := by
  obtain ⟨grouped, hg, hm⟩ := processCall_ok_inv s input out s' h
  have hloop := succ_mergeLoop { s with total_processed := input.length } grouped
  rw [hm] at hloop
  exact hloop

/-- C9 witness: the end-to-end call emits one record and bumps `successful`
by one. -/
theorem successful_counts_emitted_witness :
    (processCall initStats [goodOkx, goodBin]).2.successful =
      initStats.successful + goodOut.length :=
  successful_counts_emitted initStats [goodOkx, goodBin] goodOut
    (processCall initStats [goodOkx, goodBin]).2 (by decide)

/-- C10: when both exchange records for a symbol are present with a price
attribute and at least one price fails to parse, `_merge_pair` bumps the
invalid-price counter by exactly one — a single increment per symbol pair,
even when both prices are unparseable. -/
theorem invalid_price_counted_once
    (s : Stats) (sym : PyValue) (items : List Item) (a b : Item)
    (va vb : PyValue)
    (hfa : findExchange items "okx" = .ok (some a))
    (hfb : findExchange items "binance" = .ok (some b))
    (hva : a.latest_price = some va) (hvb : b.latest_price = some vb)
    (hinv : safeFloat va = Option.none ∨ safeFloat vb = Option.none) :
    (mergePair s sym items).2.price_invalid = s.price_invalid + 1 := by
  have hcp : (calcPrices s va vb).2.2 = bumpPriceInvalid s :=
    calcPrices_invalid s va vb hinv
  have hcb : calcBlock s a b =
      calcRates (calcPrices s va vb).1 (calcPrices s va vb).2.1
        (calcPrices s va vb).2.2 a.funding_rate b.funding_rate := by
    simp only [calcBlock, hva, hvb]
  rcases h3 : calcBlock s a b with ⟨o, s1⟩
  have hs1 : s1.price_invalid = s.price_invalid + 1 := by
    have hp := pinv_calcRates (calcPrices s va vb).1 (calcPrices s va vb).2.1
      (calcPrices s va vb).2.2 a.funding_rate b.funding_rate
    rw [← hcb, h3] at hp
    rw [hcp] at hp
    exact hp
  simp only [mergePair, hfa, hfb, h3]
  rcases o with _ | t
  · exact hs1
  · cases h4 : buildRecord sym a b t.1 t.2.1 t.2.2 with
    | ok r => simp only [h4]; exact hs1
    | error e => simp only [h4]; exact hs1

/-- C10 witness: the unparseable okx price `"abc"` paired with a good binance
record bumps `price_invalid` from 0 to 1. -/
theorem invalid_price_counted_once_witness :
    (mergePair initStats (.str "X") [badPriceOkx, goodBin]).2.price_invalid =
      initStats.price_invalid + 1 :=
  invalid_price_counted_once initStats (.str "X") [badPriceOkx, goodBin]
    badPriceOkx goodBin (.str "abc") (.str "101") (by decide) (by decide)
    (by decide) (by decide) (Or.inl (by decide))

end Step5
